import Mathlib

/-!
Verification of the round state machine and input-matching engine of the
`metyping` terminal typing game (`src/main.rs`).

The embedding models the game state (`App`) and its operations
(`handle_key_event`, `count`, `next_round`) as pure Lean functions.
Randomness in `next_round` (two calls to `rng.gen_range(0..ALPHABET.len())`)
is modelled by passing the two drawn indices as explicit `Fin 26` parameters.
Rust `String` contents are modelled as `List Char`; the `u8` counters are
modelled as `Nat` with `% 256` applied at the increment (u8 wrap-around
semantics).  The diagnostic printed by `exit_error` is modelled by a boolean
field `errored` on the state, so that reaching the defensive error branch is
observable in the model.
-/

set_option autoImplicit false

namespace Metyping

/-- The `Mode` enum from `src/main.rs` (declared; never dispatched on). -/
inductive Mode where
  | Random : Mode
  | Chars : Nat → Mode
  | Words : Nat → Mode
deriving DecidableEq, Repr

/-- `SpanType` from `src/main.rs`. -/
inductive SpanType where
  | DEFAULT : SpanType
  | HIT : SpanType
  | MISS : SpanType
deriving DecidableEq, Repr

/-- `TextSpan` from `src/main.rs`: a span type together with the span's text
content (the rendering style carried by the ratatui `Span` is ignored). -/
structure TextSpan where
  span_type : SpanType
  content : List Char
deriving DecidableEq, Repr

/-- `TextSpan::hit`: a HIT span with the given content. -/
def TextSpan.hit (value : List Char) : TextSpan :=
  ⟨SpanType.HIT, value⟩

/-- `TextSpan::default_with_text`: a DEFAULT span with the given content. -/
def TextSpan.default_with_text (text : List Char) : TextSpan :=
  ⟨SpanType.DEFAULT, text⟩

/-- The `App` struct from `src/main.rs`.  `remainder` is the content of the
`remainder` span; `errored` records whether `exit_error` has run. -/
structure App where
  mode : Mode
  wins : Nat
  fails : Nat
  remainder : List Char
  spans : List TextSpan
  exit : Bool
  miss_this_round : Bool
  errored : Bool
deriving DecidableEq, Repr

/-- `App::default()` from the derived `Default` impl. -/
def App.default : App :=
  ⟨Mode.Random, 0, 0, [], [], false, false, false⟩

/-- `DIGITS` from `src/main.rs`. -/
def DIGITS : List String :=
  ["0", "1", "2", "3", "4", "5", "6", "7", "8", "9"]

/-- `ALPHABET` from `src/main.rs`. -/
def ALPHABET : List String :=
  ["a", "b", "c", "d", "e", "f", "g", "h", "i", "j", "k", "l", "m", "n", "o",
   "p", "q", "r", "s", "t", "u", "v", "w", "x", "y", "z"]

/-- `SPECIALS` from `src/main.rs` (note: the double-quote entry appears at
both index 22 and index 23, exactly as in the source array literal). -/
def SPECIALS : List String :=
  ["!", "@", "#", "$", "%", "^", "&", "*", "(", ")", "-", "_", "+", "=", "\x7b",
   "\x7d", "[", "]", "|", "\\", ":", ";", "\"", "\"", "<", ">", ",", ".", "/",
   "?", "`"]

/-- `App::exit_error`: prints a diagnostic and sets the exit flag; the
diagnostic is modelled by setting `errored`. -/
def exit_error (s : App) : App :=
  { s with exit := true, errored := true }

/-- `App::count`: increments `fails` when `fail` holds, otherwise `wins`
(u8 increment, modelled modulo 256). -/
def count (fail : Bool) (s : App) : App :=
  if fail then { s with fails := (s.fails + 1) % 256 }
  else { s with wins := (s.wins + 1) % 256 }

/-- The target string built by `App::next_round` from the two drawn indices:
`ALPHABET[i]` concatenated with `ALPHABET[j]`. -/
def target_of (i j : Fin 26) : List Char :=
  ((ALPHABET.getD i.val "") ++ (ALPHABET.getD j.val "")).data

/-- `App::next_round` with the two random index draws passed explicitly:
clears `spans`, sets `remainder` to the fresh two-letter target, resets
`miss_this_round`. -/
def next_round (i j : Fin 26) (s : App) : App :=
  { s with
    spans := [],
    remainder := target_of i j,
    miss_this_round := false }

/-- The `KeyCode::Char(v)` branch of `App::handle_key_event`.  The two random
indices consumed by `next_round` on round completion are passed explicitly.
`starts_with(v)` on the remainder is `head? = some v`; `replacen(v, "", 1)`
removes the first occurrence of `v`, i.e. `List.erase`.  The `count` and
`next_round` calls cannot return `Err`, so the two `is_err` branches after
them are not represented; the `last is None` branch is `exit_error`. -/
def submit_char (c : Char) (i j : Fin 26) (s : App) : App :=
  if s.remainder.head? = some c then
    let new_remainder := s.remainder.erase c
    if new_remainder.isEmpty then
      next_round i j (count s.miss_this_round s)
    else
      let s2 :=
        if s.spans.isEmpty then
          { s with spans := s.spans ++ [TextSpan.hit [c]] }
        else
          match s.spans.getLast? with
          | some last =>
              { s with
                spans := s.spans.dropLast ++ [TextSpan.hit (last.content ++ [c])] }
          | none => exit_error s
      { s2 with remainder := new_remainder }
  else
    { s with miss_this_round := true }

/-- The key events distinguished by `App::handle_key_event`: Escape, a
character key (with the random indices a completion would consume), and
anything else. -/
inductive AppEvent where
  | esc : AppEvent
  | charKey : Char → Fin 26 → Fin 26 → AppEvent
  | other : AppEvent

/-- `App::handle_key_event`: Escape sets the exit flag, a character key is
matched against the remainder, other keys are ignored. -/
def handle_key_event : AppEvent → App → App
  | AppEvent.esc, s => { s with exit := true }
  | AppEvent.charKey c i j, s => submit_char c i j s
  | AppEvent.other, s => s

/-- Running a sequence of key events through `handle_key_event`. -/
def runEvents : List AppEvent → App → App
  | [], s => s
  | e :: rest, s => runEvents rest (handle_key_event e s)

/-- Running a sequence of submitted characters through `submit_char`
(each paired with the indices a completion would consume). -/
def submitSeq : List (Char × Fin 26 × Fin 26) → App → App
  | [], s => s
  | (c, i, j) :: rest, s => submitSeq rest (submit_char c i j s)

/-- No step of the sequence completes a round: at each step the remainder is
not exactly the singleton of the submitted character. -/
def NoCompletion : List (Char × Fin 26 × Fin 26) → App → Prop
  | [], _ => True
  | (c, i, j) :: rest, s =>
      s.remainder ≠ [c] ∧ NoCompletion rest (submit_char c i j s)

/-- Concatenation of the texts of a list of spans. -/
def spansText (l : List TextSpan) : List Char :=
  l.foldr (fun sp acc => sp.content ++ acc) []

/-- The inductive invariant used for the reachable-state safety property: at most one span, every span is a HIT
span, and the defensive error branch has never run. -/
def SpansInv (s : App) : Prop :=
  s.spans.length ≤ 1 ∧ (∀ sp ∈ s.spans, sp.span_type = SpanType.HIT) ∧
  s.errored = false

lemma alphabet_getD_data_length :
    ∀ k : Fin 26, ((ALPHABET.getD k.val "").data).length = 1 := by decide

lemma alphabet_getD_lower :
    ∀ k : Fin 26, ∀ ch ∈ (ALPHABET.getD k.val "").data, 'a' ≤ ch ∧ ch ≤ 'z' := by decide

lemma target_of_eq (i j : Fin 26) :
    target_of i j = (ALPHABET.getD i.val "").data ++ (ALPHABET.getD j.val "").data := by
  simp [target_of, String.data_append]

lemma target_of_length (i j : Fin 26) : (target_of i j).length = 2 := by
  rw [target_of_eq, List.length_append, alphabet_getD_data_length i,
    alphabet_getD_data_length j]

lemma target_of_ne_nil (i j : Fin 26) : target_of i j ≠ [] := by
  intro h
  have := target_of_length i j
  rw [h] at this
  simp at this

lemma submit_char_of_miss (s : App) (c : Char) (i j : Fin 26)
    (h : ¬ s.remainder.head? = some c) :
    submit_char c i j s = { s with miss_this_round := true } := by
  unfold submit_char
  rw [if_neg h]

lemma submit_char_final (s : App) (c : Char) (i j : Fin 26)
    (h : s.remainder = [c]) :
    submit_char c i j s = next_round i j (count s.miss_this_round s) := by
  unfold submit_char
  rw [h]
  simp

lemma submit_char_nonfinal_nil (s : App) (c d : Char) (rest : List Char)
    (i j : Fin 26) (h : s.remainder = c :: d :: rest) (hs : s.spans = []) :
    submit_char c i j s =
      { s with spans := [TextSpan.hit [c]], remainder := d :: rest } := by
  unfold submit_char
  rw [h]
  simp [hs]

lemma submit_char_nonfinal_cons (s : App) (c d : Char) (rest : List Char)
    (i j : Fin 26) (h : s.remainder = c :: d :: rest) (hs : s.spans ≠ []) :
    submit_char c i j s =
      { s with
        spans := s.spans.dropLast ++ [TextSpan.hit ((s.spans.getLast hs).content ++ [c])],
        remainder := d :: rest } := by
  unfold submit_char
  rw [h]
  simp only [List.head?_cons, if_pos rfl, List.erase_cons_head, List.isEmpty_cons,
    List.isEmpty_eq_true, hs, if_false]
  rw [List.getLast?_eq_getLast _ hs]
  simp [List.isEmpty_iff, hs]

lemma remainder_two_of (s : App) (c : Char)
    (h1 : s.remainder.head? = some c) (h2 : 2 ≤ s.remainder.length) :
    ∃ d rest, s.remainder = c :: d :: rest := by
  match hr : s.remainder with
  | [] => rw [hr] at h1; simp at h1
  | [x] => rw [hr] at h2; simp at h2
  | x :: d :: rest =>
      rw [hr] at h1
      simp at h1
      exact ⟨d, rest, by rw [h1]⟩

/-- Claim C1: submitting the correct leading character of a remainder of length at
least 2 removes exactly that leading character (leaving the tail) and leaves
`miss_this_round`, `wins` and `fails` unchanged. -/
theorem hit_nonfinal_shortens_remainder (s : App) (c : Char) (i j : Fin 26)
    (h1 : s.remainder.head? = some c) (h2 : 2 ≤ s.remainder.length) :
    (submit_char c i j s).remainder = s.remainder.tail ∧
    (submit_char c i j s).miss_this_round = s.miss_this_round ∧
    (submit_char c i j s).wins = s.wins ∧
    (submit_char c i j s).fails = s.fails := by
  obtain ⟨d, rest, hr⟩ := remainder_two_of s c h1 h2
  by_cases hs : s.spans = []
  · rw [submit_char_nonfinal_nil s c d rest i j hr hs, hr]
    simp
  · rw [submit_char_nonfinal_cons s c d rest i j hr hs, hr]
    simp

theorem hit_nonfinal_shortens_remainder_witness :
    ({ App.default with remainder := ['a', 'b'] } : App).remainder.head? = some 'a' ∧
    2 ≤ ({ App.default with remainder := ['a', 'b'] } : App).remainder.length ∧
    ((submit_char 'a' 0 0 { App.default with remainder := ['a', 'b'] }).remainder =
      ({ App.default with remainder := ['a', 'b'] } : App).remainder.tail ∧
     (submit_char 'a' 0 0 { App.default with remainder := ['a', 'b'] }).miss_this_round =
      ({ App.default with remainder := ['a', 'b'] } : App).miss_this_round ∧
     (submit_char 'a' 0 0 { App.default with remainder := ['a', 'b'] }).wins =
      ({ App.default with remainder := ['a', 'b'] } : App).wins ∧
     (submit_char 'a' 0 0 { App.default with remainder := ['a', 'b'] }).fails =
      ({ App.default with remainder := ['a', 'b'] } : App).fails) :=
  ⟨rfl, by decide,
    hit_nonfinal_shortens_remainder { App.default with remainder := ['a', 'b'] }
      'a' 0 0 rfl (by decide)⟩

/-- Claim C2: submitting a character that is not the leading character of a
non-empty remainder leaves `remainder`, `spans`, `wins` and `fails` unchanged
and sets `miss_this_round := true`; a second wrong character keeps it true. -/
theorem miss_sets_flag (s : App) (c : Char) (i j : Fin 26)
    (_hne : s.remainder ≠ []) (h : ¬ s.remainder.head? = some c) :
    (submit_char c i j s).remainder = s.remainder ∧
    (submit_char c i j s).spans = s.spans ∧
    (submit_char c i j s).miss_this_round = true ∧
    (submit_char c i j s).wins = s.wins ∧
    (submit_char c i j s).fails = s.fails ∧
    ∀ (c2 : Char) (i2 j2 : Fin 26), ¬ s.remainder.head? = some c2 →
      (submit_char c2 i2 j2 (submit_char c i j s)).miss_this_round = true := by
  rw [submit_char_of_miss s c i j h]
  refine ⟨rfl, rfl, rfl, rfl, rfl, ?_⟩
  intro c2 i2 j2 h2
  rw [submit_char_of_miss { s with miss_this_round := true } c2 i2 j2 h2]

theorem miss_sets_flag_witness :
    ({ App.default with remainder := ['a', 'b'] } : App).remainder ≠ [] ∧
    ¬ ({ App.default with remainder := ['a', 'b'] } : App).remainder.head? = some 'x' ∧
    ((submit_char 'x' 0 0 { App.default with remainder := ['a', 'b'] }).remainder =
      ({ App.default with remainder := ['a', 'b'] } : App).remainder ∧
     (submit_char 'x' 0 0 { App.default with remainder := ['a', 'b'] }).spans =
      ({ App.default with remainder := ['a', 'b'] } : App).spans ∧
     (submit_char 'x' 0 0 { App.default with remainder := ['a', 'b'] }).miss_this_round = true ∧
     (submit_char 'x' 0 0 { App.default with remainder := ['a', 'b'] }).wins =
      ({ App.default with remainder := ['a', 'b'] } : App).wins ∧
     (submit_char 'x' 0 0 { App.default with remainder := ['a', 'b'] }).fails =
      ({ App.default with remainder := ['a', 'b'] } : App).fails ∧
     ∀ (c2 : Char) (i2 j2 : Fin 26),
       ¬ ({ App.default with remainder := ['a', 'b'] } : App).remainder.head? = some c2 →
       (submit_char c2 i2 j2
         (submit_char 'x' 0 0 { App.default with remainder := ['a', 'b'] })).miss_this_round =
         true) :=
  ⟨by decide, by decide,
    miss_sets_flag { App.default with remainder := ['a', 'b'] } 'x' 0 0
      (by decide) (by decide)⟩

/-- Claim C3: submitting the single character of a one-character remainder completes
the round: with `miss_this_round = false` it increments `wins` (as a `u8`,
i.e. modulo 256) and leaves `fails` unchanged; with `miss_this_round = true`
it does the reverse. -/
theorem round_completion_counts (s : App) (c : Char) (i j : Fin 26)
    (h : s.remainder = [c]) :
    (s.miss_this_round = false →
      (submit_char c i j s).wins = (s.wins + 1) % 256 ∧
      (submit_char c i j s).fails = s.fails) ∧
    (s.miss_this_round = true →
      (submit_char c i j s).fails = (s.fails + 1) % 256 ∧
      (submit_char c i j s).wins = s.wins) := by
  rw [submit_char_final s c i j h]
  constructor
  · intro hm
    rw [hm]
    simp [next_round, count]
  · intro hm
    rw [hm]
    simp [next_round, count]

theorem round_completion_counts_witness :
    ({ App.default with remainder := ['b'] } : App).remainder = ['b'] ∧
    ((({ App.default with remainder := ['b'] } : App).miss_this_round = false →
      (submit_char 'b' 0 0 { App.default with remainder := ['b'] }).wins =
        (({ App.default with remainder := ['b'] } : App).wins + 1) % 256 ∧
      (submit_char 'b' 0 0 { App.default with remainder := ['b'] }).fails =
        ({ App.default with remainder := ['b'] } : App).fails) ∧
     (({ App.default with remainder := ['b'] } : App).miss_this_round = true →
      (submit_char 'b' 0 0 { App.default with remainder := ['b'] }).fails =
        (({ App.default with remainder := ['b'] } : App).fails + 1) % 256 ∧
      (submit_char 'b' 0 0 { App.default with remainder := ['b'] }).wins =
        ({ App.default with remainder := ['b'] } : App).wins)) :=
  ⟨rfl, round_completion_counts { App.default with remainder := ['b'] } 'b' 0 0 rfl⟩

/-- Claim C4: after `next_round` (and hence after any round completion, which ends
in `next_round`) the remainder is non-empty, the span list is empty and
`miss_this_round` is false. -/
theorem fresh_round_state (s s2 : App) (c : Char) (i j i2 j2 : Fin 26)
    (h : s2.remainder = [c]) :
    ((next_round i j s).remainder ≠ [] ∧ (next_round i j s).spans = [] ∧
      (next_round i j s).miss_this_round = false) ∧
    ((submit_char c i2 j2 s2).remainder ≠ [] ∧ (submit_char c i2 j2 s2).spans = [] ∧
      (submit_char c i2 j2 s2).miss_this_round = false) := by
  rw [submit_char_final s2 c i2 j2 h]
  exact ⟨⟨target_of_ne_nil i j, rfl, rfl⟩, ⟨target_of_ne_nil i2 j2, rfl, rfl⟩⟩

theorem fresh_round_state_witness :
    ({ App.default with remainder := ['b'] } : App).remainder = ['b'] ∧
    (((next_round 0 0 App.default).remainder ≠ [] ∧
      (next_round 0 0 App.default).spans = [] ∧
      (next_round 0 0 App.default).miss_this_round = false) ∧
     ((submit_char 'b' 1 2 { App.default with remainder := ['b'] }).remainder ≠ [] ∧
      (submit_char 'b' 1 2 { App.default with remainder := ['b'] }).spans = [] ∧
      (submit_char 'b' 1 2 { App.default with remainder := ['b'] }).miss_this_round = false)) :=
  ⟨rfl, fresh_round_state App.default { App.default with remainder := ['b'] } 'b' 0 0 1 2 rfl⟩

/-- Claim C5: every target produced by `next_round`, for any choice of the two
random indices, has length exactly 2 and consists of lowercase letters
`a`–`z` only. -/
theorem generated_target_shape (s : App) (i j : Fin 26) :
    (next_round i j s).remainder.length = 2 ∧
    ∀ ch ∈ (next_round i j s).remainder, 'a' ≤ ch ∧ ch ≤ 'z' := by
  refine ⟨target_of_length i j, ?_⟩
  intro ch hch
  have hch2 : ch ∈ target_of i j := hch
  rw [target_of_eq i j] at hch2
  rcases List.mem_append.mp hch2 with hmem | hmem
  · exact alphabet_getD_lower i ch hmem
  · exact alphabet_getD_lower j ch hmem

lemma spansText_nil : spansText [] = [] := rfl

lemma spansText_cons (sp : TextSpan) (l : List TextSpan) :
    spansText (sp :: l) = sp.content ++ spansText l := rfl

lemma spansText_append (l1 l2 : List TextSpan) :
    spansText (l1 ++ l2) = spansText l1 ++ spansText l2 := by
  induction l1 with
  | nil => rfl
  | cons sp l ih => simp [spansText_cons, ih]

/-- Claim C6: the concatenation of the span texts followed by the remainder is the
round's target: it is established by `next_round` and preserved by every
`submit_char` — unchanged while the round is not completed, and re-established
for the new target when the round completes. -/
theorem spans_remainder_concat_invariant (s : App) (t : List Char) (c : Char)
    (i j : Fin 26) (h : spansText s.spans ++ s.remainder = t) :
    (s.remainder ≠ [c] →
      spansText (submit_char c i j s).spans ++ (submit_char c i j s).remainder = t) ∧
    (s.remainder = [c] →
      spansText (submit_char c i j s).spans ++ (submit_char c i j s).remainder =
        target_of i j) ∧
    spansText (next_round i j s).spans ++ (next_round i j s).remainder = target_of i j := by
  refine ⟨?_, ?_, by simp [next_round, spansText_nil]⟩
  · intro hne
    by_cases hh : s.remainder.head? = some c
    · match hr : s.remainder with
      | [] => rw [hr] at hh; simp at hh
      | [x] =>
          rw [hr] at hh
          simp at hh
          rw [hh] at hr
          exact absurd hr hne
      | x :: d :: rest =>
          rw [hr] at hh
          simp at hh
          subst hh
          by_cases hs : s.spans = []
          · rw [submit_char_nonfinal_nil s x d rest i j hr hs]
            rw [hs, spansText_nil, List.nil_append] at h
            simp [TextSpan.hit, spansText_cons, spansText_nil]
            rw [hr] at h
            simpa using h
          · rw [submit_char_nonfinal_cons s x d rest i j hr hs]
            have hsplit : s.spans.dropLast ++ [s.spans.getLast hs] = s.spans :=
              List.dropLast_append_getLast hs
            rw [← hsplit, spansText_append] at h
            simp only [spansText_cons, spansText_nil, List.append_nil] at h
            rw [hr] at h
            simp only [spansText_append, spansText_cons, spansText_nil, TextSpan.hit]
            simp only [List.append_assoc, List.append_nil] at h ⊢
            simpa using h
    · rw [submit_char_of_miss s c i j hh]
      exact h
  · intro hr
    rw [submit_char_final s c i j hr]
    simp [next_round, spansText_nil]

theorem spans_remainder_concat_invariant_witness :
    spansText ({ App.default with remainder := ['a', 'b'] } : App).spans ++
      ({ App.default with remainder := ['a', 'b'] } : App).remainder = ['a', 'b'] ∧
    ((({ App.default with remainder := ['a', 'b'] } : App).remainder ≠ ['a'] →
      spansText (submit_char 'a' 0 0 { App.default with remainder := ['a', 'b'] }).spans ++
        (submit_char 'a' 0 0 { App.default with remainder := ['a', 'b'] }).remainder =
        ['a', 'b']) ∧
     (({ App.default with remainder := ['a', 'b'] } : App).remainder = ['a'] →
      spansText (submit_char 'a' 0 0 { App.default with remainder := ['a', 'b'] }).spans ++
        (submit_char 'a' 0 0 { App.default with remainder := ['a', 'b'] }).remainder =
        target_of 0 0) ∧
     spansText (next_round 0 0 { App.default with remainder := ['a', 'b'] }).spans ++
       (next_round 0 0 { App.default with remainder := ['a', 'b'] }).remainder =
       target_of 0 0) :=
  ⟨rfl, spans_remainder_concat_invariant { App.default with remainder := ['a', 'b'] }
    ['a', 'b'] 'a' 0 0 rfl⟩

/-- Claim C7: from a state with no spans yet (as at the start of a round), typing
two consecutive correct characters, the second of which is not final, yields
exactly one HIT span holding both characters in order. -/
theorem consecutive_hits_coalesce (s : App) (a b : Char) (rest : List Char)
    (i j i2 j2 : Fin 26) (hs : s.spans = [])
    (hr : s.remainder = a :: b :: rest) (hrest : rest ≠ []) :
    (submit_char b i2 j2 (submit_char a i j s)).spans = [TextSpan.hit [a, b]] := by
  rw [submit_char_nonfinal_nil s a b rest i j hr hs]
  match rest, hrest with
  | e :: rest2, _ =>
      rw [submit_char_nonfinal_cons _ b e rest2 i2 j2 rfl (by simp)]
      simp [TextSpan.hit]

theorem consecutive_hits_coalesce_witness :
    ({ App.default with remainder := ['a', 'b', 'c'] } : App).spans = [] ∧
    ({ App.default with remainder := ['a', 'b', 'c'] } : App).remainder =
      'a' :: 'b' :: ['c'] ∧
    (['c'] : List Char) ≠ [] ∧
    (submit_char 'b' 2 3
      (submit_char 'a' 0 1 { App.default with remainder := ['a', 'b', 'c'] })).spans =
      [TextSpan.hit ['a', 'b']] :=
  ⟨rfl, rfl, by decide,
    consecutive_hits_coalesce { App.default with remainder := ['a', 'b', 'c'] }
      'a' 'b' ['c'] 0 1 2 3 rfl rfl (by decide)⟩

/-- Claim C8 fails as stated: the `SPECIALS` array contains the double-quote symbol
twice (indices 22 and 23), so it does not consist of 31 distinct symbols. -/
theorem specials_duplicate_counterexample :
    SPECIALS.getD 22 "" = "\"" ∧ SPECIALS.getD 23 "" = "\"" ∧ ¬ SPECIALS.Nodup := by
  decide

/-- Claim C8 (amended): the three static alphabets are immutable single-character
symbol lists of lengths 10, 26 and 31; `DIGITS` and `ALPHABET` are
duplicate-free, while `SPECIALS` holds only 30 distinct symbols because the
double quote appears exactly twice; the three are pairwise disjoint. -/
theorem alphabet_sets_shape :
    DIGITS.length = 10 ∧ DIGITS.Nodup ∧
    ALPHABET.length = 26 ∧ ALPHABET.Nodup ∧
    SPECIALS.length = 31 ∧ SPECIALS.dedup.length = 30 ∧
    SPECIALS.count "\"" = 2 ∧
    (∀ x ∈ DIGITS, x.length = 1) ∧
    (∀ x ∈ ALPHABET, x.length = 1) ∧
    (∀ x ∈ SPECIALS, x.length = 1) ∧
    (∀ x ∈ DIGITS, x ∉ ALPHABET ∧ x ∉ SPECIALS) ∧
    (∀ x ∈ ALPHABET, x ∉ SPECIALS) := by
  decide

lemma submit_preserves_miss (s : App) (c : Char) (i j : Fin 26)
    (hm : s.miss_this_round = true) (hne : s.remainder ≠ [c]) :
    (submit_char c i j s).miss_this_round = true := by
  by_cases hh : s.remainder.head? = some c
  · match hr : s.remainder with
    | [] => rw [hr] at hh; simp at hh
    | [x] =>
        rw [hr] at hh
        simp at hh
        rw [hh] at hr
        exact absurd hr hne
    | x :: d :: rest =>
        rw [hr] at hh
        simp at hh
        subst hh
        by_cases hs : s.spans = []
        · rw [submit_char_nonfinal_nil s x d rest i j hr hs]
          exact hm
        · rw [submit_char_nonfinal_cons s x d rest i j hr hs]
          exact hm
  · rw [submit_char_of_miss s c i j hh]

/-- Claim C9: within a round, `miss_this_round` never returns from true to false:
any sequence of submissions none of which completes the round keeps it true,
and only `next_round` resets it to false. -/
theorem miss_flag_monotone (cs : List (Char × Fin 26 × Fin 26)) (s : App)
    (hm : s.miss_this_round = true) (hnc : NoCompletion cs s) :
    (submitSeq cs s).miss_this_round = true ∧
    ∀ (s2 : App) (i j : Fin 26), (next_round i j s2).miss_this_round = false := by
  refine ⟨?_, fun s2 i j => rfl⟩
  induction cs generalizing s with
  | nil => exact hm
  | cons p rest ih =>
      obtain ⟨c, i, j⟩ := p
      obtain ⟨h1, h2⟩ := hnc
      exact ih (submit_char c i j s) (submit_preserves_miss s c i j hm h1) h2

theorem miss_flag_monotone_witness :
    ({ App.default with remainder := ['a', 'b'], miss_this_round := true } : App).miss_this_round =
      true ∧
    NoCompletion [('x', 0, 0)]
      { App.default with remainder := ['a', 'b'], miss_this_round := true } ∧
    ((submitSeq [('x', 0, 0)]
        { App.default with remainder := ['a', 'b'], miss_this_round := true }).miss_this_round =
       true ∧
     ∀ (s2 : App) (i j : Fin 26), (next_round i j s2).miss_this_round = false) :=
  ⟨rfl, ⟨by decide, trivial⟩,
    miss_flag_monotone [('x', 0, 0)]
      { App.default with remainder := ['a', 'b'], miss_this_round := true }
      rfl ⟨by decide, trivial⟩⟩

lemma singleton_of_length_le_one {α : Type} (l : List α) (hlen : l.length ≤ 1)
    (hne : l ≠ []) : ∃ a, l = [a] := by
  match l, hlen, hne with
  | [a], _, _ => exact ⟨a, rfl⟩

lemma submit_preserves_SpansInv (s : App) (c : Char) (i j : Fin 26)
    (h : SpansInv s) : SpansInv (submit_char c i j s) := by
  obtain ⟨hlen, hhit, herr⟩ := h
  by_cases hh : s.remainder.head? = some c
  · match hr : s.remainder with
    | [] => rw [hr] at hh; simp at hh
    | [x] =>
        rw [hr] at hh
        simp at hh
        subst hh
        rw [submit_char_final s x i j hr]
        unfold next_round count
        split
        · exact ⟨by simp, by simp, herr⟩
        · exact ⟨by simp, by simp, herr⟩
    | x :: d :: rest =>
        rw [hr] at hh
        simp at hh
        subst hh
        by_cases hs : s.spans = []
        · rw [submit_char_nonfinal_nil s x d rest i j hr hs]
          refine ⟨by simp, ?_, herr⟩
          intro sp hsp
          simp at hsp
          rw [hsp]
          rfl
        · obtain ⟨sp0, hsp0⟩ := singleton_of_length_le_one s.spans hlen hs
          rw [submit_char_nonfinal_cons s x d rest i j hr hs]
          refine ⟨?_, ?_, herr⟩
          · simp [hsp0]
          · intro sp hsp
            simp [hsp0] at hsp
            rw [hsp]
            rfl
  · rw [submit_char_of_miss s c i j hh]
    exact ⟨hlen, hhit, herr⟩

lemma handle_preserves_SpansInv (e : AppEvent) (s : App) (h : SpansInv s) :
    SpansInv (handle_key_event e s) := by
  cases e with
  | esc => exact ⟨h.1, h.2.1, h.2.2⟩
  | charKey c i j => exact submit_preserves_SpansInv s c i j h
  | other => exact h

lemma runEvents_preserves_SpansInv (evts : List AppEvent) (s : App)
    (h : SpansInv s) : SpansInv (runEvents evts s) := by
  induction evts generalizing s with
  | nil => exact h
  | cons e rest ih => exact ih (handle_key_event e s) (handle_preserves_SpansInv e s h)

/-- Claim C10: in every state reachable by key events from a fresh round, the span
list has at most one element, every span in it is a HIT span, and the
defensive `last is None` error branch has never executed (so the pop in the
hit branch always succeeds). -/
theorem spans_at_most_one_and_no_error (s0 : App) (i j : Fin 26)
    (evts : List AppEvent) (h : s0.errored = false) :
    (runEvents evts (next_round i j s0)).spans.length ≤ 1 ∧
    (∀ sp ∈ (runEvents evts (next_round i j s0)).spans,
      sp.span_type = SpanType.HIT) ∧
    (runEvents evts (next_round i j s0)).errored = false :=
  runEvents_preserves_SpansInv evts (next_round i j s0) ⟨by simp [next_round], by simp [next_round], h⟩

theorem spans_at_most_one_and_no_error_witness :
    App.default.errored = false ∧
    ((runEvents [AppEvent.charKey 'a' 1 2, AppEvent.charKey 'q' 3 4]
        (next_round 0 0 App.default)).spans.length ≤ 1 ∧
     (∀ sp ∈ (runEvents [AppEvent.charKey 'a' 1 2, AppEvent.charKey 'q' 3 4]
        (next_round 0 0 App.default)).spans, sp.span_type = SpanType.HIT) ∧
     (runEvents [AppEvent.charKey 'a' 1 2, AppEvent.charKey 'q' 3 4]
        (next_round 0 0 App.default)).errored = false) :=
  ⟨rfl, spans_at_most_one_and_no_error App.default 0 0
    [AppEvent.charKey 'a' 1 2, AppEvent.charKey 'q' 3 4] rfl⟩

end Metyping
